import Mathlib

/-!
Verification development for the APEx document repository's build-time core.

The repository's core logic is the catalog builder in the documents module
(exported as getAllDocs) together with the readYAML helper, and the
file-icon selection component FileIcon.tsx.  Both are shallowly embedded
below: the filesystem is modelled as an explicit tree of directory entries,
YAML parsing as an optional metadata value (`none` models a read or parse
failure that the source swallows in a try/catch), and dates as integer
timestamps in milliseconds (the value of a JavaScript Date; a missing
`date` field is `none` and the source substitutes the epoch, Date 0).
JavaScript's Array.prototype.sort is stable by specification; it is
embedded as insertion sort with a non-strict descending comparison, which
is stable in the same sense.
-/

namespace ApexDocRepo

/-- Parsed sidecar metadata: the fields of the YAML mapping that the
catalog builder reads.  `format` is the asset extension; `date` is the
timestamp obtained by parsing the date field (present and truthy in the
source iff `some`). -/
structure DocMeta where
  format : Option String
  date : Option Int
deriving DecidableEq, Repr

/-- An entry of a project directory: a regular file with the outcome of
reading and parsing it (`none` models a read or parse failure), or a
non-file entry, which the builder's isFile filter discards. -/
inductive DirEnt where
  | file (name : String) (parsed : Option DocMeta)
  | subdir (name : String)
deriving DecidableEq, Repr

/-- An entry of the documents root: a project subdirectory with its
entries, or a non-directory entry, which the isDirectory filter discards. -/
inductive RootEnt where
  | project (name : String) (entries : List DirEnt)
  | rootFile (name : String)
deriving DecidableEq, Repr

/-- The empty mapping that the source falls back to. -/
def emptyMeta : DocMeta := ⟨none, none⟩

/-- Embeds readYAML: a successful read and parse returns the mapping
(`yaml.load(raw) || {}` turns an empty document into the empty mapping,
already folded into the `some` case here); the catch branch returns the
empty mapping. -/
def readYAML (parsed : Option DocMeta) : DocMeta := parsed.getD emptyMeta

/-- The sidecar filter of getAllDocs:
`f.name.endsWith(".yml") || f.name.endsWith(".yaml")`, a case-sensitive
suffix test. -/
def isYamlName (name : String) : Bool :=
  ".yml".data.isSuffixOf name.data || ".yaml".data.isSuffixOf name.data

/-- Embeds `propFile.replace(/\.(yml|yaml)$/i, "")`: the regex is anchored
at the end of the name and case-insensitive, so it removes a final
`.yml` or `.yaml` written in any case, and leaves other names unchanged. -/
def stripYamlExt (name : String) : String :=
  let lower := name.data.map Char.toLower
  if ".yaml".data.isSuffixOf lower then String.mk (name.data.take (name.data.length - 5))
  else if ".yml".data.isSuffixOf lower then String.mk (name.data.take (name.data.length - 4))
  else name

/-- The record pushed onto the accumulator for each sidecar file. -/
structure DocRecord where
  project : String
  filename : String
  slug : String
  meta : DocMeta
  url : String
deriving DecidableEq, Repr

/-- Embeds the string coercion in `slug + "." + meta.format`: JavaScript
concatenation renders an absent field as the text undefined. -/
def formatStr (m : DocMeta) : String := m.format.getD "undefined"

/-- The record built for one sidecar file of one project, following the
body of getAllDocs's inner loop. -/
def mkRecord (project name : String) (parsed : Option DocMeta) : DocRecord :=
  let meta := readYAML parsed
  let slug := stripYamlExt name
  let filename := slug ++ "." ++ formatStr meta
  { project := project, filename := filename, slug := slug, meta := meta,
    url := "/docs/" ++ project ++ "/" ++ filename }

/-- The file enumeration of one project directory: keep regular files
whose name passes the sidecar filter, in directory order. -/
def projectFiles (entries : List DirEnt) : List (String × Option DocMeta) :=
  entries.filterMap fun e =>
    match e with
    | .file n p => if isYamlName n then some (n, p) else none
    | .subdir _ => none

/-- The project enumeration of the documents root: keep directories, in
directory order. -/
def projectDirs (entries : List RootEnt) : List (String × List DirEnt) :=
  entries.filterMap fun e =>
    match e with
    | .project n es => some (n, es)
    | .rootFile _ => none

/-- The accumulation loop of getAllDocs before sorting: one record per
selected sidecar, projects flattened in scan order. -/
def buildRecords (entries : List RootEnt) : List DocRecord :=
  (projectDirs entries).flatMap fun pe =>
    (projectFiles pe.2).map fun fe => mkRecord pe.1 fe.1 fe.2

/-- The sort key of the comparator: `a.meta.date ? new Date(a.meta.date)
: new Date(0)`, as a timestamp. -/
def dateKey (r : DocRecord) : Int := r.meta.date.getD 0

/-- The order established by the comparator `db - da`: descending by
date key. -/
def dateDescOrder (a b : DocRecord) : Prop := dateKey b ≤ dateKey a

instance : DecidableRel dateDescOrder :=
  fun a b => inferInstanceAs (Decidable (dateKey b ≤ dateKey a))

instance : IsTotal DocRecord dateDescOrder :=
  ⟨fun a b => le_total (dateKey b) (dateKey a)⟩

instance : IsTrans DocRecord dateDescOrder :=
  ⟨fun _ _ _ hab hbc => le_trans hbc hab⟩

/-- Embeds getAllDocs: `none` models a nonexistent documents root, for
which the source returns `[]` before scanning; otherwise the accumulated
records are sorted by date descending with a stable sort and a fresh
copy of the sorted array is returned. -/
def getAllDocs (root : Option (List RootEnt)) : List DocRecord :=
  match root with
  | none => []
  | some entries => List.insertionSort dateDescOrder (buildRecords entries)

/-- The number of selected sidecar files across all projects. -/
def totalSidecars (entries : List RootEnt) : Nat :=
  ((projectDirs entries).map fun pe => (projectFiles pe.2).length).sum

/-- The icon categories returned by FileIcon.tsx. -/
inductive Icon where
  | pdf
  | wordDoc
  | spreadsheet
  | presentation
  | archive
  | generic
deriving DecidableEq, Repr

/-- Embeds `split(".").pop()`: the segment of the character list after
the last dot, which is the whole list when no dot occurs. -/
def lastSeg : List Char → List Char → List Char
  | acc, [] => acc.reverse
  | acc, c :: rest => if c = '.' then lastSeg [] rest else lastSeg (c :: acc) rest

/-- Character-wise lowercasing, embedding toLowerCase on the ASCII
extensions the switch compares against. -/
def lowerStr (s : String) : String := String.mk (s.data.map Char.toLower)

/-- Embeds the extension extraction
`(filename || "").toString().split(".").pop()?.toLowerCase() || ""`. -/
def extOf (filename : Option String) : String :=
  lowerStr (String.mk (lastSeg [] (filename.getD "").data))

/-- The switch of FileIcon.tsx, from lowercased extension to icon. -/
def iconFor : String → Icon
  | "pdf" => .pdf
  | "doc" => .wordDoc
  | "docx" => .wordDoc
  | "xls" => .spreadsheet
  | "xlsx" => .spreadsheet
  | "ppt" => .presentation
  | "pptx" => .presentation
  | "zip" => .archive
  | "tgz" => .archive
  | "tar" => .archive
  | "gz" => .archive
  | _ => .generic

/-- Embeds the FileIcon component as the category of icon it renders. -/
def FileIcon (filename : Option String) : Icon := iconFor (extOf filename)

/-- The extensions with a dedicated (non-generic) icon. -/
def recognizedExts : List String :=
  ["pdf", "doc", "docx", "xls", "xlsx", "ppt", "pptx", "zip", "tgz", "tar", "gz"]

/-- Formalisation of claim C9's reading of the extension rule, for
comparison with the source: take the substring after the last dot,
lowercased, when the name contains a dot; an absent extension maps to the
generic icon. -/
def fileIconClaimed (filename : Option String) : Icon :=
  if '.' ∈ (filename.getD "").data then
    iconFor (lowerStr (String.mk (lastSeg [] (filename.getD "").data)))
  else Icon.generic

/-- Formalisation of claim C3's selection criterion, for comparison with
the source filter: a case-insensitive suffix test for the two YAML
extensions. -/
def isYamlClaimed (name : String) : Bool :=
  ".yml".data.isSuffixOf (name.data.map Char.toLower) ||
    ".yaml".data.isSuffixOf (name.data.map Char.toLower)

/-- A project directory holding an unreadable sidecar and a well-formed
one, exercising the swallowed-error path. -/
def wit4dir : List DirEnt :=
  [.file "bad.yml" none, .file "good.yaml" (some ⟨some "pdf", some 3⟩)]

/-- A documents root containing only the directory wit4dir. -/
def wit4entries : List RootEnt := [.project "p" wit4dir]

/-- A documents root with a sidecar dated before the epoch (negative
timestamp) scanned before an undated sidecar. -/
def cex2root : Option (List RootEnt) :=
  some [.project "p" [.file "a.yml" (some ⟨some "pdf", some (-1)⟩),
                      .file "b.yml" (some ⟨some "pdf", none⟩)]]

/-- A documents root with a sidecar dated after the epoch and an undated
sidecar. -/
def wit2root : Option (List RootEnt) :=
  some [.project "p" [.file "a.yml" (some ⟨some "pdf", some 5⟩),
                      .file "b.yml" (some ⟨some "pdf", none⟩)]]

/-- A documents root whose only sidecar carries an upper-case YAML
extension. -/
def cex3root : Option (List RootEnt) :=
  some [.project "p" [.file "REPORT.YML" (some ⟨some "pdf", some 1⟩)]]

/-- A documents root whose only sidecar is named exactly the bare
extension. -/
def cex8root : Option (List RootEnt) :=
  some [.project "p" [.file ".yml" (some ⟨some "pdf", none⟩)]]

/-- A one-sidecar project directory with ordinary names. -/
def wit8dir : List DirEnt := [.file "a.yml" (some ⟨some "pdf", none⟩)]

/-- A documents root containing only the directory wit8dir. -/
def wit8entries : List RootEnt := [.project "p" wit8dir]

/-! ## Helper lemmas about the embedding -/

theorem getAllDocs_some (entries : List RootEnt) :
    getAllDocs (some entries) =
      List.insertionSort dateDescOrder (buildRecords entries) := rfl

theorem mem_projectDirs {entries : List RootEnt} {n : String} {es : List DirEnt} :
    (n, es) ∈ projectDirs entries ↔ RootEnt.project n es ∈ entries := by
  unfold projectDirs
  rw [List.mem_filterMap]
  constructor
  · rintro ⟨e, he, hsome⟩
    cases e with
    | project a b =>
      simp only [Option.some.injEq, Prod.mk.injEq] at hsome
      rcases hsome with ⟨h1, h2⟩
      subst h1; subst h2; exact he
    | rootFile a => simp at hsome
  · intro h
    exact ⟨_, h, rfl⟩

theorem mem_projectFiles {es : List DirEnt} {n : String} {p : Option DocMeta} :
    (n, p) ∈ projectFiles es ↔ DirEnt.file n p ∈ es ∧ isYamlName n = true := by
  unfold projectFiles
  rw [List.mem_filterMap]
  constructor
  · rintro ⟨e, he, hsome⟩
    cases e with
    | file a b =>
      dsimp only at hsome
      by_cases hy : isYamlName a
      · rw [if_pos hy] at hsome
        simp only [Option.some.injEq, Prod.mk.injEq] at hsome
        rcases hsome with ⟨h1, h2⟩
        subst h1; subst h2; exact ⟨he, hy⟩
      · rw [if_neg hy] at hsome
        simp at hsome
    | subdir a => simp at hsome
  · rintro ⟨h1, h2⟩
    refine ⟨DirEnt.file n p, h1, ?_⟩
    dsimp only
    rw [if_pos h2]

theorem mem_buildRecords {entries : List RootEnt} {r : DocRecord} :
    r ∈ buildRecords entries ↔
      ∃ project es, RootEnt.project project es ∈ entries ∧
        ∃ n p, DirEnt.file n p ∈ es ∧ isYamlName n = true ∧
          r = mkRecord project n p := by
  unfold buildRecords
  rw [List.mem_flatMap]
  constructor
  · rintro ⟨⟨pn, pes⟩, hpe, hr⟩
    rw [List.mem_map] at hr
    obtain ⟨⟨fn, fp⟩, hfe, hrec⟩ := hr
    rw [mem_projectFiles] at hfe
    exact ⟨pn, pes, mem_projectDirs.1 hpe, fn, fp, hfe.1, hfe.2, hrec.symm⟩
  · rintro ⟨pn, pes, hpe, fn, fp, hfe, hy, hrec⟩
    exact ⟨(pn, pes), mem_projectDirs.2 hpe,
      List.mem_map.2 ⟨(fn, fp), mem_projectFiles.2 ⟨hfe, hy⟩, hrec.symm⟩⟩

theorem mem_getAllDocs_some {entries : List RootEnt} {r : DocRecord} :
    r ∈ getAllDocs (some entries) ↔
      ∃ project es, RootEnt.project project es ∈ entries ∧
        ∃ n p, DirEnt.file n p ∈ es ∧ isYamlName n = true ∧
          r = mkRecord project n p := by
  rw [getAllDocs_some,
    (List.perm_insertionSort dateDescOrder (buildRecords entries)).mem_iff,
    mem_buildRecords]

theorem sorted_getAllDocs (root : Option (List RootEnt)) :
    List.Sorted dateDescOrder (getAllDocs root) := by
  cases root with
  | none => exact List.sorted_nil
  | some entries =>
      exact List.sorted_insertionSort dateDescOrder (buildRecords entries)

theorem length_getAllDocs_some (entries : List RootEnt) :
    (getAllDocs (some entries)).length = totalSidecars entries := by
  rw [getAllDocs_some,
    (List.perm_insertionSort dateDescOrder (buildRecords entries)).length_eq]
  unfold buildRecords totalSidecars
  rw [List.length_flatMap]
  congr 1
  apply List.map_congr_left
  intro pe _
  simp [List.length_map]

theorem isYamlName_iff {n : String} :
    isYamlName n = true ↔
      (∃ t, n.data = t ++ ".yml".data) ∨ (∃ t, n.data = t ++ ".yaml".data) := by
  unfold isYamlName
  rw [Bool.or_eq_true, List.isSuffixOf_iff_suffix, List.isSuffixOf_iff_suffix]
  constructor
  · rintro (⟨t, ht⟩ | ⟨t, ht⟩)
    · exact Or.inl ⟨t, ht.symm⟩
    · exact Or.inr ⟨t, ht.symm⟩
  · rintro (⟨t, ht⟩ | ⟨t, ht⟩)
    · exact Or.inl ⟨t, ht.symm⟩
    · exact Or.inr ⟨t, ht.symm⟩

theorem map_toLower_yaml : ".yaml".data.map Char.toLower = ".yaml".data := by
  decide

theorem map_toLower_yml : ".yml".data.map Char.toLower = ".yml".data := by
  decide

theorem stripYamlExt_of_yaml {t : List Char} {n : String}
    (h : n.data = t ++ ".yaml".data) : stripYamlExt n = String.mk t := by
  have hsuf : ".yaml".data.isSuffixOf (n.data.map Char.toLower) = true := by
    rw [List.isSuffixOf_iff_suffix, h, List.map_append, map_toLower_yaml]
    exact ⟨t.map Char.toLower, rfl⟩
  unfold stripYamlExt
  rw [if_pos hsuf, h]
  have hlen : (t ++ ".yaml".data).length - 5 = t.length := by
    rw [List.length_append]; rfl
  rw [hlen]
  exact congrArg String.mk (List.take_left t ".yaml".data)

theorem stripYamlExt_of_yml {t : List Char} {n : String}
    (h : n.data = t ++ ".yml".data) : stripYamlExt n = String.mk t := by
  have hsuf : ".yml".data.isSuffixOf (n.data.map Char.toLower) = true := by
    rw [List.isSuffixOf_iff_suffix, h, List.map_append, map_toLower_yml]
    exact ⟨t.map Char.toLower, rfl⟩
  have hnot : ¬ (".yaml".data.isSuffixOf (n.data.map Char.toLower) = true) := by
    intro hc
    rw [List.isSuffixOf_iff_suffix] at hc hsuf
    rcases List.suffix_or_suffix_of_suffix hc hsuf with h1 | h1
    · exact absurd h1 (by decide)
    · exact absurd h1 (by decide)
  unfold stripYamlExt
  rw [if_neg hnot, if_pos hsuf, h]
  have hlen : (t ++ ".yml".data).length - 4 = t.length := by
    rw [List.length_append]; rfl
  rw [hlen]
  exact congrArg String.mk (List.take_left t ".yml".data)

theorem stripYamlExt_ne_empty {n : String} (hy : isYamlName n = true)
    (h1 : n ≠ ".yml") (h2 : n ≠ ".yaml") : stripYamlExt n ≠ "" := by
  rcases isYamlName_iff.1 hy with ⟨t, ht⟩ | ⟨t, ht⟩
  · rw [stripYamlExt_of_yml ht]
    intro hc
    have ht0 : t = [] := congrArg String.data hc
    rw [ht0, List.nil_append] at ht
    exact h1 (String.ext ht)
  · rw [stripYamlExt_of_yaml ht]
    intro hc
    have ht0 : t = [] := congrArg String.data hc
    rw [ht0, List.nil_append] at ht
    exact h2 (String.ext ht)

theorem lastSeg_no_dot (acc cs : List Char) (h : '.' ∉ cs) :
    lastSeg acc cs = acc.reverse ++ cs := by
  induction cs generalizing acc with
  | nil => simp [lastSeg]
  | cons c rest ih =>
    rw [List.mem_cons, not_or] at h
    rcases h with ⟨hne, hrest⟩
    simp only [lastSeg]
    rw [if_neg (fun hc => hne hc.symm), ih _ hrest]
    simp [List.reverse_cons, List.append_assoc]

/-! ## Claim theorems -/

/-- Claim C1: every output of the catalog builder is sorted by date
descending: for any two adjacent records A (earlier index) and B, the
date key of A is at least the date key of B, where a record with a
missing date carries the minimum key, the epoch. -/
theorem catalog_sorted_by_date_descending (root : Option (List RootEnt)) :
    List.Chain' (fun a b => dateKey b ≤ dateKey a) (getAllDocs root) :=
  List.Pairwise.chain' (sorted_getAllDocs root)

/-- Claim C2 (counterexample): a sidecar dated before the epoch receives
a negative date key, so an undated sidecar (key zero, the epoch) sorts
before it; here the undated record b is at index 0, ahead of the dated
record a, refuting the claim that undated records come after all dated
ones. -/
theorem undated_before_past_dated_cex :
    (getAllDocs cex2root).map (fun r => (r.slug, r.meta.date)) =
      [("b", none), ("a", some (-1))] := by decide

/-- Claim C2 (amended): every record whose sidecar has no date field
appears after every record whose date is strictly later than the epoch,
regardless of directory scan order. -/
theorem undated_after_positive_dated (root : Option (List RootEnt))
    (i j : ℕ) (r s : DocRecord)
    (hi : (getAllDocs root)[i]? = some r)
    (hj : (getAllDocs root)[j]? = some s)
    (hr : r.meta.date = none) (d : Int) (hs : s.meta.date = some d)
    (hd : 0 < d) : j < i := by
  rcases List.getElem?_eq_some.1 hi with ⟨hilen, hig⟩
  rcases List.getElem?_eq_some.1 hj with ⟨hjlen, hjg⟩
  have hp : List.Pairwise dateDescOrder (getAllDocs root) :=
    sorted_getAllDocs root
  by_contra hc
  push_neg at hc
  rcases eq_or_lt_of_le hc with heq | hlt
  · subst heq
    have hrs : r = s := hig.symm.trans hjg
    rw [hrs, hs] at hr
    exact Option.some_ne_none d hr
  · have hrel := List.pairwise_iff_getElem.1 hp i j hilen hjlen hlt
    rw [hig, hjg] at hrel
    have : dateKey s ≤ dateKey r := hrel
    rw [dateKey, dateKey, hr, hs] at this
    simp at this
    omega

/-- Claim C2 (witness for the amended claim): in the catalog of wit2root
the undated record sits at index 1, after the record dated 5. -/
theorem undated_after_positive_dated_witness :
    (getAllDocs wit2root)[1]? =
        some (mkRecord "p" "b.yml" (some ⟨some "pdf", none⟩)) ∧
      (getAllDocs wit2root)[0]? =
        some (mkRecord "p" "a.yml" (some ⟨some "pdf", some 5⟩)) ∧
      (0 : ℕ) < 1 := by
  refine ⟨by decide, by decide, ?_⟩
  exact undated_after_positive_dated wit2root 1 0
    (mkRecord "p" "b.yml" (some ⟨some "pdf", none⟩))
    (mkRecord "p" "a.yml" (some ⟨some "pdf", some 5⟩))
    (by decide) (by decide) (by decide) 5 (by decide) (by decide)

/-- Claim C3 (counterexample): the name REPORT.YML satisfies the claimed
case-insensitive criterion, yet the source filter is a case-sensitive
endsWith test, so the file is not selected and the catalog of cex3root is
empty. -/
theorem yaml_filter_case_sensitive_cex :
    isYamlClaimed "REPORT.YML" = true ∧ isYamlName "REPORT.YML" = false ∧
      getAllDocs cex3root = [] := ⟨by decide, by decide, by decide⟩

/-- Claim C3 (amended): for every project directory, the catalog builder
selects exactly the immediate files whose name ends, case-sensitively, in
the lowercase extension .yml or .yaml; a file named REPORT.YML is not
selected. -/
theorem yaml_filter_selects_lowercase_suffixes (es : List DirEnt)
    (n : String) (p : Option DocMeta) :
    (n, p) ∈ projectFiles es ↔
      DirEnt.file n p ∈ es ∧
        ((∃ t, n.data = t ++ ".yml".data) ∨
          (∃ t, n.data = t ++ ".yaml".data)) := by
  rw [mem_projectFiles, isYamlName_iff]

/-- Claim C4: a sidecar that is unreadable or contains invalid YAML
(modelled as a file whose parse outcome is none) yields the empty mapping,
still produces a record in the catalog, and removes no other record: the
catalog has exactly one record per selected sidecar, whatever the parse
outcomes. -/
theorem bad_sidecar_still_produces_record (entries : List RootEnt)
    (project : String) (es : List DirEnt) (name : String)
    (hproj : RootEnt.project project es ∈ entries)
    (hfile : DirEnt.file name none ∈ es)
    (hyaml : isYamlName name = true) :
    (mkRecord project name none).meta = emptyMeta ∧
      mkRecord project name none ∈ getAllDocs (some entries) ∧
      (getAllDocs (some entries)).length = totalSidecars entries := by
  refine ⟨rfl, ?_, length_getAllDocs_some entries⟩
  exact mem_getAllDocs_some.2 ⟨project, es, hproj, name, none, hfile, hyaml, rfl⟩

/-- Claim C4 (witness): the unreadable sidecar bad.yml of wit4entries
still contributes a record and the catalog keeps both records. -/
theorem bad_sidecar_still_produces_record_witness :
    mkRecord "p" "bad.yml" none ∈ getAllDocs (some wit4entries) ∧
      (getAllDocs (some wit4entries)).length = 2 := by
  have h := bad_sidecar_still_produces_record wit4entries "p" wit4dir "bad.yml"
    (by decide) (by decide) (by decide)
  exact ⟨h.2.1, by rw [h.2.2]; decide⟩

/-- Claim C5: a sidecar whose parsed metadata carries a format field
produces a record whose url is exactly /docs/ then the project, a slash,
the slug (the sidecar name with its YAML extension stripped), a dot and
the format. -/
theorem url_shape (entries : List RootEnt) (project : String)
    (es : List DirEnt) (name : String) (p : Option DocMeta) (f : String)
    (hproj : RootEnt.project project es ∈ entries)
    (hfile : DirEnt.file name p ∈ es)
    (hyaml : isYamlName name = true)
    (hfmt : (readYAML p).format = some f) :
    mkRecord project name p ∈ getAllDocs (some entries) ∧
      (mkRecord project name p).url =
        "/docs/" ++ project ++ "/" ++ stripYamlExt name ++ "." ++ f := by
  refine ⟨mem_getAllDocs_some.2 ⟨project, es, hproj, name, p, hfile, hyaml, rfl⟩, ?_⟩
  simp [mkRecord, formatStr, hfmt, String.append_assoc]

/-- Claim C5 (witness): the sidecar good.yaml of wit4entries with format
pdf yields the url /docs/p/good.pdf. -/
theorem url_shape_witness :
    mkRecord "p" "good.yaml" (some ⟨some "pdf", some 3⟩) ∈
        getAllDocs (some wit4entries) ∧
      (mkRecord "p" "good.yaml" (some ⟨some "pdf", some 3⟩)).url =
        "/docs/p/good.pdf" := by
  have h := url_shape wit4entries "p" wit4dir "good.yaml"
    (some ⟨some "pdf", some 3⟩) "pdf" (by decide) (by decide) (by decide)
    (by decide)
  refine ⟨h.1, ?_⟩
  rw [h.2]
  decide

/-- Claim C6: every selected sidecar produces a record whose filename is
the slug, a dot, and the metadata's format; when the format is absent the
filename ends in the literal suffix .undefined, and the degenerate record
is still produced. -/
theorem filename_shape (entries : List RootEnt) (project : String)
    (es : List DirEnt) (name : String) (p : Option DocMeta)
    (hproj : RootEnt.project project es ∈ entries)
    (hfile : DirEnt.file name p ∈ es)
    (hyaml : isYamlName name = true) :
    mkRecord project name p ∈ getAllDocs (some entries) ∧
      (mkRecord project name p).filename =
        stripYamlExt name ++ "." ++ formatStr (readYAML p) ∧
      ((readYAML p).format = none →
        ∃ t, (mkRecord project name p).filename.data =
          t ++ ".undefined".data) := by
  refine ⟨mem_getAllDocs_some.2 ⟨project, es, hproj, name, p, hfile, hyaml, rfl⟩,
    rfl, ?_⟩
  intro hnone
  refine ⟨(stripYamlExt name).data, ?_⟩
  show (stripYamlExt name ++ "." ++ formatStr (readYAML p)).data = _
  rw [formatStr, hnone]
  rw [String.data_append, String.data_append, List.append_assoc]
  congr 1

/-- Claim C6 (witness): the unreadable sidecar bad.yml of wit4entries has
no format, and its record's filename bad.undefined ends in .undefined. -/
theorem filename_shape_witness :
    mkRecord "p" "bad.yml" none ∈ getAllDocs (some wit4entries) ∧
      (mkRecord "p" "bad.yml" none).filename = "bad.undefined" := by
  have h := filename_shape wit4entries "p" wit4dir "bad.yml" none
    (by decide) (by decide) (by decide)
  refine ⟨h.1, ?_⟩
  rw [h.2.1]
  decide

/-- Claim C7: a nonexistent documents root and an empty documents root
both yield the empty catalog, with no error (the embedding is a total
function). -/
theorem empty_or_missing_root_yields_empty :
    getAllDocs none = [] ∧ getAllDocs (some []) = [] := ⟨rfl, rfl⟩

/-- Claim C8 (counterexample): a sidecar named exactly .yml is selected
and its record's slug is the empty string, refuting the claim that the
slug is always a non-empty string, even for names consisting only of a
YAML extension. -/
theorem slug_empty_for_bare_extension_cex :
    (getAllDocs cex8root).map (fun r => (r.project, r.slug)) = [("p", "")] := by
  decide

/-- Claim C8 (amended): every record's project and slug fields are
populated from filesystem names; the project is non-empty whenever the
project directory names are non-empty, and the slug is non-empty whenever
no sidecar filename consists solely of a YAML extension. -/
theorem project_slug_populated (entries : List RootEnt) (r : DocRecord)
    (hr : r ∈ getAllDocs (some entries))
    (hprojects : ∀ n es, RootEnt.project n es ∈ entries → n ≠ "")
    (hnames : ∀ pn es fn p, RootEnt.project pn es ∈ entries →
      DirEnt.file fn p ∈ es → fn ≠ ".yml" ∧ fn ≠ ".yaml") :
    r.project ≠ "" ∧ r.slug ≠ "" := by
  rcases mem_getAllDocs_some.1 hr with ⟨pn, es, hproj, fn, p, hfile, hy, hrec⟩
  subst hrec
  refine ⟨hprojects pn es hproj, ?_⟩
  rcases hnames pn es fn p hproj hfile with ⟨h1, h2⟩
  exact stripYamlExt_ne_empty hy h1 h2

/-- Claim C8 (witness for the amended claim): the one record of
wit8entries has project p and slug a, both non-empty. -/
theorem project_slug_populated_witness :
    (mkRecord "p" "a.yml" (some ⟨some "pdf", none⟩)).project ≠ "" ∧
      (mkRecord "p" "a.yml" (some ⟨some "pdf", none⟩)).slug ≠ "" := by
  apply project_slug_populated wit8entries
    (mkRecord "p" "a.yml" (some ⟨some "pdf", none⟩)) (by decide)
  · intro n es h
    simp only [wit8entries, List.mem_singleton] at h
    injection h with h1 h2
    subst h1
    decide
  · intro pn es fn p h1 h2
    simp only [wit8entries, List.mem_singleton] at h1
    injection h1 with hpn hes
    subst hes
    simp only [wit8dir, List.mem_singleton] at h2
    injection h2 with hfn hp
    subst hfn
    exact ⟨by decide, by decide⟩

/-- Claim C9 (counterexample): the filename pdf contains no dot, so under
the claim's extraction rule its extension is absent and the icon should
be generic; the source instead falls back to the whole name and returns
the pdf icon. -/
theorem file_icon_whole_name_fallback_cex :
    ('.' ∉ "pdf".data) ∧ fileIconClaimed (some "pdf") = Icon.generic ∧
      FileIcon (some "pdf") = Icon.pdf := ⟨by decide, by decide, by decide⟩

/-- Claim C9 (amended): the file-icon lookup is a pure function of the
filename: it extracts the substring after the last dot when one occurs
and otherwise falls back to the whole name, compares case-insensitively,
and maps it to one of the fixed categories, generic for anything
unrecognized; report.PDF maps to pdf, archive.tar.gz to archive (final
extension gz), and notes to generic. -/
theorem file_icon_extension_rule :
    (∀ fn : Option String,
      FileIcon fn =
        if '.' ∈ (fn.getD "").data then fileIconClaimed fn
        else iconFor (lowerStr (fn.getD ""))) ∧
      FileIcon (some "report.PDF") = Icon.pdf ∧
      FileIcon (some "archive.tar.gz") = Icon.archive ∧
      FileIcon (some "notes") = Icon.generic := by
  refine ⟨?_, by decide, by decide, by decide⟩
  intro fn
  by_cases h : '.' ∈ (fn.getD "").data
  · rw [if_pos h]
    simp [FileIcon, extOf, fileIconClaimed, h]
  · rw [if_neg h]
    have hseg : lastSeg [] (fn.getD "").data = (fn.getD "").data := by
      simpa using lastSeg_no_dot [] (fn.getD "").data h
    simp [FileIcon, extOf, hseg]

/-- Claim C10: a filename with no dot whose whole name is a recognized
extension (case-insensitively) maps to that extension's icon rather than
the generic one, because the extraction falls back to the whole name; a
null or empty filename maps to the generic icon without failing. -/
theorem file_icon_dotless_recognized :
    (∀ s : String, '.' ∉ s.data → lowerStr s ∈ recognizedExts →
      FileIcon (some s) = iconFor (lowerStr s) ∧
        FileIcon (some s) ≠ Icon.generic) ∧
      FileIcon none = Icon.generic ∧ FileIcon (some "") = Icon.generic := by
  refine ⟨?_, by decide, by decide⟩
  intro s hdot hmem
  have hseg : lastSeg [] s.data = s.data := by
    simpa using lastSeg_no_dot [] s.data hdot
  have heq : FileIcon (some s) = iconFor (lowerStr s) := by
    simp [FileIcon, extOf, hseg]
  refine ⟨heq, ?_⟩
  rw [heq]
  simp only [recognizedExts, List.mem_cons, List.not_mem_nil, or_false] at hmem
  rcases hmem with h | h | h | h | h | h | h | h | h | h | h <;>
    · rw [h]; decide

/-- Claim C10 (witness): the filename ZIP has no dot, lowercases to the
recognized extension zip, and maps to the archive icon, not generic. -/
theorem file_icon_dotless_recognized_witness :
    FileIcon (some "ZIP") = iconFor (lowerStr "ZIP") ∧
      FileIcon (some "ZIP") ≠ Icon.generic :=
  file_icon_dotless_recognized.1 "ZIP" (by decide) (by decide)

end ApexDocRepo
